import Mathlib

/-!
# webcrawl.go: a concurrent fetch with one global deadline

A shallow embedding of `webcrawl.go`.  Everything the program cannot decide
itself is an explicit input (`World`): what the JSON decoder yields, what the
network does for each goroutine, the clock readings, how `select` breaks a
tie, and how long the dispatcher takes between two `select`s.  Instants and
durations are natural numbers of nanoseconds, as in `time.Duration`.
-/

namespace Webcrawl

/-! ## Data model -/

/-- The record type `Lang` of the source (lines 16-20). -/
structure Lang where
  Name : String
  Year : Int
  URL : String
deriving DecidableEq

/-- What the network did for one call of `count`: the result of `http.Get`
(line 29) and, when that succeeded, of `io.Copy` (line 34), which returns the
number of bytes copied together with an error. -/
inductive Retrieval where
  | getError (err : String)
  | response (n : Nat) (copyErr : Option String)
deriving DecidableEq

/-- The environment of one `count` goroutine: its retrieval, the instant of
`time.Now()` at line 28, and the time that passes until it reaches its send. -/
structure Fetch where
  retrieval : Retrieval
  start : Nat
  elapsed : Nat

/-! ## The fetch worker `count` (lines 27-38) -/

/-- The function `count`, as the list of the sends it performs on `c`, in order.
`fmtSecs` renders a duration with the verb `%.2f` applied to its seconds;
`httpGet` is the network as this goroutine sees it. -/
def count (fmtSecs : Nat → String) (httpGet : String → Fetch) (name url : String) :
    List String :=
  match (httpGet url).retrieval with
  | .getError err => [name ++ ": " ++ err]
  | .response n _ => [name ++ " " ++ toString n ++ " [" ++ fmtSecs (httpGet url).elapsed ++ "s]\n"]

/-! ## The task source `do` (lines 44-61) -/

/-- The decoding loop of `do` (lines 50-60) over the successive results of
`dec.Decode`: the end of the list is `io.EOF`, an `error` entry is any other
decoding error.  It returns the state reached by the callbacks run so far and
the argument of `log.Fatal` when the run was aborted. -/
def decodeLoop {σ : Type} (f : Lang → σ → σ) : List (Except String Lang) → σ → σ × Option String
  | [], s => (s, none)
  | .error e :: _, s => (s, some e)
  | .ok lang :: rest, s => decodeLoop f rest (f lang s)

/-- The function `do`: `input` is the result of `os.Open` followed by what the
decoder yields. -/
def «do» {σ : Type} (input : Except String (List (Except String Lang))) (f : Lang → σ → σ)
    (s : σ) : σ × Option String :=
  match input with
  | .error e => (s, some e)
  | .ok records => decodeLoop f records s

/-! ## The channel, the timer and `select` -/

/-- One send on the channel `c` (made unbuffered at line 70), as the dispatcher
sees it: the instant at which the sending goroutine reaches the send, and the
string sent.  The send completes only when a receive takes it. -/
structure Worker where
  ready : Nat
  msg : String
deriving DecidableEq

/-- The send that a receive on `c` takes next, and the sends left: the one
that is ready first, the earlier goroutine first among equals. -/
def extractMin : List Worker → Option (Worker × List Worker)
  | [] => none
  | w :: ws =>
    match extractMin ws with
    | none => some (w, [])
    | some (m, rest) => if w.ready ≤ m.ready then some (w, ws) else some (m, w :: rest)

/-- The instant at which the channel returned by `time.After(d)`, called at
instant `now`, delivers. -/
def timeAfter (now d : Nat) : Nat := now + d

/-- The duration `time.Second`, in nanoseconds. -/
def second : Nat := 1000000000

/-- The `select` of lines 79-85, entered at instant `now`: the instant at which
it returns and the case taken, `some (w, rest)` for `case result := <-c` with
the send received and the sends left, `none` for `case <-timeout`.  A case can
be taken from the instant it is ready; the case ready first is taken, and when
both are ready at the same instant (at entry, or later) `pickTimer` decides. -/
def select (timeout now : Nat) (pending : List Worker) (pickTimer : Bool) :
    Nat × Option (Worker × List Worker) :=
  match extractMin pending with
  | none => (max now timeout, none)
  | some (w, rest) =>
    if max now w.ready < max now timeout then (max now w.ready, some (w, rest))
    else if max now timeout < max now w.ready then (max now timeout, none)
    else if pickTimer then (max now timeout, none)
    else (max now w.ready, some (w, rest))

/-! ## The dispatcher `main` (lines 67-89) -/

/-- One string written to standard output, by the statement that wrote it:
line 81, line 83 or line 88 (with the duration `time.Since(start)`). -/
inductive Line where
  | result (s : String)
  | timedOut
  | total (d : Nat)
deriving DecidableEq

/-- The text of a printed line. -/
def Line.render (fmtSecs : Nat → String) : Line → String
  | .result s => s
  | .timedOut => "Timed out\n"
  | .total d => fmtSecs d ++ "s total\n"

/-- Whether a printed line is a result received from the channel. -/
def Line.isResult : Line → Bool
  | .result _ => true
  | _ => false

/-- One evaluation of the `select`: when it was entered, when it returned, and
the send it received (`none` when it took the deadline). -/
structure Iter where
  entered : Nat
  woke : Nat
  got : Option Worker
deriving DecidableEq

/-- The state of the collection loop (lines 77-86): the loop variable `i`, the
clock, the instant at which the channel `timeout` delivers, the sends on `c`
not received so far (those a goroutine is blocked in, and those a goroutine
has yet to reach), what has been printed, whether the `return` of line 84 was
taken, and the history of the `select`s evaluated so far. -/
structure Loop where
  i : Nat
  now : Nat
  timeout : Nat
  pending : List Worker
  out : List Line
  timedOut : Bool
  trace : List Iter
deriving DecidableEq

/-- One iteration of `for i := 0; i < n; i++ { select ... }`; a loop that has
ended (by the `return` or by `i < n` failing) stays as it is. -/
def step (n : Nat) (tie : Nat → Bool) (delay : Nat → Nat) (s : Loop) : Loop :=
  if s.timedOut then s
  else if s.i < n then
    match select s.timeout s.now s.pending (tie s.i) with
    | (t, some (w, rest)) =>
      { s with i := s.i + 1, now := t + delay s.i, pending := rest,
               out := s.out ++ [Line.result w.msg],
               trace := s.trace ++ [⟨s.now, t, some w⟩] }
    | (t, none) =>
      { s with now := t + delay s.i, out := s.out ++ [Line.timedOut], timedOut := true,
               trace := s.trace ++ [⟨s.now, t, none⟩] }
  else s

/-- Everything `main` takes from outside. -/
structure World where
  /-- The verb `%.2f` applied to the seconds of a duration. -/
  fmtSecs : Nat → String
  /-- The result of `os.Open` and then of each `dec.Decode`. -/
  input : Except String (List (Except String Lang))
  /-- The instant of `time.Now()` at line 69. -/
  t0 : Nat
  /-- The time from line 69 to the call of `time.After` at line 77. -/
  enumTime : Nat
  /-- The network as the goroutine started `j`-th sees it. -/
  net : Nat → String → Fetch
  /-- The choice of `select` number `i` when both cases are ready together. -/
  tie : Nat → Bool
  /-- The time the dispatcher takes after `select` number `i` returns. -/
  delay : Nat → Nat

/-- The variables the callback of lines 72-75 updates: the counter `n`, and the
arguments of the goroutines started so far. -/
structure Enum where
  n : Nat
  started : List (String × String)
deriving DecidableEq

/-- The callback of lines 72-75: `n++` and `go count(lang.Name, lang.URL, c)`. -/
def spawn (lang : Lang) (e : Enum) : Enum :=
  { n := e.n + 1, started := e.started ++ [(lang.Name, lang.URL)] }

/-- The sends that the goroutines started with the given arguments perform on
`c`, the first goroutine being number `j`. -/
def sendsFrom (w : World) : Nat → List (String × String) → List Worker
  | _, [] => []
  | j, (name, url) :: rest =>
    (count w.fmtSecs (w.net j) name url).map
        (fun m => ⟨(w.net j url).start + (w.net j url).elapsed, m⟩)
      ++ sendsFrom w (j + 1) rest

/-- The enumeration of lines 71-75. -/
def enumerate (w : World) : Enum × Option String :=
  «do» w.input spawn ⟨0, []⟩

/-- The instant at which the channel `timeout` of line 77 delivers. -/
def deadline (w : World) : Nat :=
  timeAfter (w.t0 + w.enumTime) (1 * second)

/-- The state in which the loop of line 78 is entered. -/
def loopInit (w : World) : Loop :=
  { i := 0, now := w.t0 + w.enumTime, timeout := deadline w,
    pending := sendsFrom w 0 (enumerate w).1.started,
    out := [], timedOut := false, trace := [] }

/-- The state of the loop after `k` steps. -/
def loopAt (w : World) (k : Nat) : Loop :=
  (step (enumerate w).1.n w.tie w.delay)^[k] (loopInit w)

/-- The state in which the loop is left: `n` steps are enough (`loop_ends`). -/
def loopEnd (w : World) : Loop :=
  loopAt w (enumerate w).1.n

/-- How a run of `main` ends. -/
inductive Exit where
  | fatal (err : String)
  | timedOut
  | completed
deriving DecidableEq

/-- A run of `main`: the goroutines it started, the final value of `n`, what it
printed, the `select`s it evaluated, the sends on `c` not received when it
ended, and how it ended. -/
structure Run where
  started : List (String × String)
  n : Nat
  out : List Line
  trace : List Iter
  pending : List Worker
  exit : Exit
deriving DecidableEq

/-- The function `main`. -/
def main (w : World) : Run :=
  match enumerate w with
  | (e, some err) =>
    { started := e.started, n := e.n, out := [], trace := [],
      pending := sendsFrom w 0 e.started, exit := .fatal err }
  | (e, none) =>
    let s := loopEnd w
    if s.timedOut then
      { started := e.started, n := e.n, out := s.out, trace := s.trace,
        pending := s.pending, exit := .timedOut }
    else
      { started := e.started, n := e.n, out := s.out ++ [Line.total (s.now - w.t0)],
        trace := s.trace, pending := s.pending, exit := .completed }

/-- The text `main` writes to standard output. -/
def Run.text (fmtSecs : Nat → String) (r : Run) : String :=
  String.join (r.out.map (Line.render fmtSecs))

/-! ## Concrete runs -/

/-- A rendering of durations used in the concrete runs: seconds rounded to the
nearest hundredth.  It agrees with `%.2f` wherever the duration is not half a
hundredth from a printed value, as in every concrete run below. -/
def centis (d : Nat) : String :=
  toString ((d + 5000000) / 10000000 / 100) ++ "."
    ++ toString ((d + 5000000) / 10000000 / 10 % 10)
    ++ toString ((d + 5000000) / 10000000 % 10)

/-- Three targets answering after 0.1 s, 0.2 s and 2.0 s. -/
def slowWorld : World :=
  { fmtSecs := centis
    input := .ok [.ok ⟨"Go", 2009, "g"⟩, .ok ⟨"Python", 1991, "p"⟩, .ok ⟨"Ruby", 1995, "r"⟩]
    t0 := 0
    enumTime := 1000
    net := fun j _ =>
      if j = 0 then ⟨.response 7 none, 10, 2000000000⟩
      else if j = 1 then ⟨.response 500 none, 20, 200000000⟩
      else ⟨.response 0 none, 30, 100000000⟩
    tie := fun _ => false
    delay := fun _ => 0 }

/-- Two targets, the first unreachable, the second answering 500 bytes. -/
def fastWorld : World :=
  { fmtSecs := centis
    input := .ok [.ok ⟨"Go", 2009, "g"⟩, .ok ⟨"Python", 1991, "p"⟩]
    t0 := 0
    enumTime := 1000
    net := fun j _ =>
      if j = 0 then ⟨.getError "connection refused", 10, 70000000⟩
      else ⟨.response 500 none, 20, 50000000⟩
    tie := fun _ => false
    delay := fun _ => 0 }

/-- One target answering after 0.5 s, in a run whose enumeration takes 5 s;
the `select` would take the deadline on a tie. -/
def lateWorld : World :=
  { fmtSecs := centis
    input := .ok [.ok ⟨"Go", 2009, "g"⟩]
    t0 := 0
    enumTime := 5000000000
    net := fun _ _ => ⟨.response 7 none, 5000000000, 500000000⟩
    tie := fun _ => true
    delay := fun _ => 0 }

/-- A source whose second record is malformed. -/
def brokenWorld : World :=
  { fmtSecs := centis
    input := .ok [.ok ⟨"Go", 2009, "g"⟩, .error "invalid character", .ok ⟨"Ruby", 1995, "r"⟩]
    t0 := 0
    enumTime := 1000
    net := fun _ _ => ⟨.response 7 none, 10, 100000000⟩
    tie := fun _ => false
    delay := fun _ => 0 }

/-- Two targets answering after 0.1 s, with a dispatcher that takes 1.3 s after
each `select` (its standard output is slow to accept the print) and a `select`
that takes the deadline when both cases are ready. -/
def busyWorld : World :=
  { fmtSecs := centis
    input := .ok [.ok ⟨"Go", 2009, "g"⟩, .ok ⟨"Python", 1991, "p"⟩]
    t0 := 0
    enumTime := 1000
    net := fun _ _ => ⟨.response 7 none, 10, 100000000⟩
    tie := fun _ => true
    delay := fun _ => 1300000000 }

/-- The time the dispatcher takes in all after its first `n` `select`s. -/
def lag (delay : Nat → Nat) : Nat → Nat
  | 0 => 0
  | n + 1 => lag delay n + delay n

/-- The results received so far, in the order of their arrival. -/
def Loop.received (s : Loop) : List Worker :=
  s.trace.filterMap Iter.got

/-- The results a run received, in the order of their arrival. -/
def Run.received (r : Run) : List Worker :=
  r.trace.filterMap Iter.got

/-- The records that `do` hands to its callback, in order. -/
def yielded (input : Except String (List (Except String Lang))) : List Lang :=
  («do» input (fun l acc => acc ++ [l]) []).1

/-! ## The invariant of the loop -/

/-- What holds of every state of a loop of `n` iterations over the sends `ws`
whose timer delivers at `D`. -/
structure Inv (n D : Nat) (ws : List Worker) (s : Loop) : Prop where
  timeout_eq : s.timeout = D
  i_eq : s.i = s.received.length
  i_le : s.i ≤ n
  i_lt : s.timedOut = true → s.i < n
  out_eq : s.out = s.received.map (fun a => Line.result a.msg)
      ++ (if s.timedOut then [Line.timedOut] else [])
  shape : s.trace.map Iter.got = s.received.map some ++ (if s.timedOut then [none] else [])
  perm : (s.received ++ s.pending).Perm ws
  sorted : s.received.Pairwise (fun a b => a.ready ≤ b.ready)
  le_pending : ∀ a ∈ s.received, ∀ p ∈ s.pending, a.ready ≤ p.ready
  woke_le : ∀ it ∈ s.trace, it.woke ≤ max it.entered D
  woke_ge : ∀ it ∈ s.trace, it.got = none → D ≤ it.woke

/-! ## The queue of sends -/

theorem extractMin_eq_none {l : List Worker} : extractMin l = none ↔ l = [] := by
  cases l with
  | nil => simp [extractMin]
  | cons w ws =>
    simp only [extractMin]
    cases extractMin ws with
    | none => simp
    | some p =>
      obtain ⟨m, rest⟩ := p
      by_cases h : w.ready ≤ m.ready <;> simp [h]

theorem extractMin_spec {l : List Worker} {m : Worker} {rest : List Worker}
    (h : extractMin l = some (m, rest)) :
    l.Perm (m :: rest) ∧ ∀ x ∈ rest, m.ready ≤ x.ready := by
  induction l generalizing m rest with
  | nil => simp [extractMin] at h
  | cons w ws ih =>
    simp only [extractMin] at h
    cases hws : extractMin ws with
    | none =>
      rw [hws] at h
      simp only [Option.some.injEq, Prod.mk.injEq] at h
      obtain ⟨rfl, rfl⟩ := h
      rw [extractMin_eq_none.mp hws]
      simp
    | some p =>
      obtain ⟨m1, rest1⟩ := p
      rw [hws] at h
      obtain ⟨hperm, hle⟩ := ih hws
      by_cases hc : w.ready ≤ m1.ready
      · simp only [hc, if_true, Option.some.injEq, Prod.mk.injEq] at h
        obtain ⟨rfl, rfl⟩ := h
        refine ⟨List.Perm.refl _, fun x hx => ?_⟩
        rcases List.mem_cons.mp (hperm.subset hx) with rfl | hx1
        · exact hc
        · exact le_trans hc (hle x hx1)
      · simp only [hc, if_false, Option.some.injEq, Prod.mk.injEq] at h
        obtain ⟨rfl, rfl⟩ := h
        refine ⟨(List.Perm.cons w hperm).trans (List.Perm.swap _ _ _), fun x hx => ?_⟩
        rcases List.mem_cons.mp hx with rfl | hx1
        · exact le_of_lt (not_le.mp hc)
        · exact hle x hx1

/-! ## The `select` -/

theorem select_recv {D now : Nat} {p : List Worker} {tie : Bool} {t : Nat} {w : Worker}
    {rest : List Worker} (h : select D now p tie = (t, some (w, rest))) :
    extractMin p = some (w, rest) ∧ t = max now w.ready ∧ t ≤ max now D := by
  unfold select at h
  cases hp : extractMin p with
  | none => rw [hp] at h; simp at h
  | some q =>
    obtain ⟨m, r⟩ := q
    rw [hp] at h
    simp only at h
    split_ifs at h with h1 h2 h3
    · simp only [Prod.mk.injEq, Option.some.injEq] at h
      obtain ⟨rfl, rfl, rfl⟩ := h
      exact ⟨rfl, rfl, le_of_lt h1⟩
    · simp at h
    · simp at h
    · simp only [Prod.mk.injEq, Option.some.injEq] at h
      obtain ⟨rfl, rfl, rfl⟩ := h
      exact ⟨rfl, rfl, not_lt.mp h2⟩

theorem select_deadline {D now : Nat} {p : List Worker} {tie : Bool} {t : Nat}
    (h : select D now p tie = (t, none)) : t = max now D := by
  unfold select at h
  cases hp : extractMin p with
  | none => rw [hp] at h; simp at h; exact h.symm
  | some q =>
    obtain ⟨m, r⟩ := q
    rw [hp] at h
    simp only at h
    split_ifs at h with h1 h2 h3
    · simp at h
    · simp at h; exact h.symm
    · simp at h; exact h.symm
    · simp at h

/-! ## One step of the loop -/

/-- The three ways a step can go: the loop has ended, a result is received, or
the deadline is taken. -/
theorem step_cases (n : Nat) (tie : Nat → Bool) (delay : Nat → Nat) (s : Loop) :
    ((s.timedOut = true ∨ n ≤ s.i) ∧ step n tie delay s = s) ∨
    (s.timedOut = false ∧ s.i < n ∧ ∃ t w rest,
      select s.timeout s.now s.pending (tie s.i) = (t, some (w, rest)) ∧
      step n tie delay s =
        { s with i := s.i + 1, now := t + delay s.i, pending := rest,
                 out := s.out ++ [Line.result w.msg],
                 trace := s.trace ++ [⟨s.now, t, some w⟩] }) ∨
    (s.timedOut = false ∧ s.i < n ∧ ∃ t,
      select s.timeout s.now s.pending (tie s.i) = (t, none) ∧
      step n tie delay s =
        { s with now := t + delay s.i, out := s.out ++ [Line.timedOut], timedOut := true,
                 trace := s.trace ++ [⟨s.now, t, none⟩] }) := by
  unfold step
  by_cases hto : s.timedOut = true
  · left; simp [hto]
  · have hf : s.timedOut = false := by simpa using hto
    by_cases hi : s.i < n
    · right
      rcases hsel : select s.timeout s.now s.pending (tie s.i) with ⟨t, _ | ⟨w, rest⟩⟩
      · right; exact ⟨hf, hi, t, rfl, by simp [hf, hi]⟩
      · left; exact ⟨hf, hi, t, w, rest, rfl, by simp [hf, hi]⟩
    · left; exact ⟨Or.inr (not_lt.mp hi), by simp [hf, hi]⟩

/-! ## The invariant is kept -/

theorem inv_init (n D t1 : Nat) (ws : List Worker) :
    Inv n D ws { i := 0, now := t1, timeout := D, pending := ws, out := [],
                 timedOut := false, trace := [] } := by
  constructor <;> simp [Loop.received]

theorem inv_step {n D : Nat} {ws : List Worker} (tie : Nat → Bool) (delay : Nat → Nat)
    {s : Loop} (h : Inv n D ws s) : Inv n D ws (step n tie delay s) := by
  rcases step_cases n tie delay s with ⟨_, hs⟩ | ⟨hf, hi, t, w, rest, hsel, hs⟩ | ⟨hf, hi, t, hsel, hs⟩
  · rw [hs]; exact h
  · rw [hs]
    obtain ⟨hmin, ht, htD⟩ := select_recv hsel
    obtain ⟨hperm, hle⟩ := extractMin_spec hmin
    have hrec : Loop.received
        { s with i := s.i + 1, now := t + delay s.i, pending := rest,
                 out := s.out ++ [Line.result w.msg],
                 trace := s.trace ++ [⟨s.now, t, some w⟩] } = s.received ++ [w] := by
      simp [Loop.received, List.filterMap_append]
    have hout := h.out_eq
    have hshape := h.shape
    simp only [hf] at hout hshape
    constructor
    · exact h.timeout_eq
    · rw [hrec]; simp [h.i_eq]
    · exact hi
    · intro hto; simp [hf] at hto
    · rw [hrec]; simp [hf, hout]
    · rw [hrec]; simp [hf, hshape]
    · rw [hrec]
      refine List.Perm.trans ?_ h.perm
      simp only [List.append_assoc, List.singleton_append]
      exact List.Perm.append_left _ hperm.symm
    · rw [hrec]
      refine List.pairwise_append.mpr ⟨h.sorted, List.pairwise_singleton _ _, fun a ha b hb => ?_⟩
      rw [List.mem_singleton.mp hb]
      exact h.le_pending a ha w (hperm.symm.subset (List.mem_cons_self _ _))
    · rw [hrec]
      intro a ha p hp
      rcases List.mem_append.mp ha with ha1 | ha1
      · exact h.le_pending a ha1 p (hperm.symm.subset (List.mem_cons_of_mem _ hp))
      · rw [List.mem_singleton.mp ha1]; exact hle p hp
    · intro it hit
      rcases List.mem_append.mp hit with h1 | h1
      · exact h.woke_le it h1
      · rw [List.mem_singleton.mp h1]
        rw [h.timeout_eq] at htD
        exact htD
    · intro it hit hnone
      rcases List.mem_append.mp hit with h1 | h1
      · exact h.woke_ge it h1 hnone
      · rw [List.mem_singleton.mp h1] at hnone; simp at hnone
  · rw [hs]
    have ht := select_deadline hsel
    rw [h.timeout_eq] at ht
    have hrec : Loop.received
        { s with now := t + delay s.i, out := s.out ++ [Line.timedOut], timedOut := true,
                 trace := s.trace ++ [⟨s.now, t, none⟩] } = s.received := by
      simp [Loop.received, List.filterMap_append]
    have hout := h.out_eq
    have hshape := h.shape
    simp only [hf] at hout hshape
    constructor
    · exact h.timeout_eq
    · rw [hrec]; exact h.i_eq
    · exact h.i_le
    · intro _; exact hi
    · rw [hrec]; simp [hout]
    · rw [hrec]; simp [hshape]
    · rw [hrec]; exact h.perm
    · rw [hrec]; exact h.sorted
    · rw [hrec]; exact h.le_pending
    · intro it hit
      rcases List.mem_append.mp hit with h1 | h1
      · exact h.woke_le it h1
      · rw [List.mem_singleton.mp h1, ht]
    · intro it hit hnone
      rcases List.mem_append.mp hit with h1 | h1
      · exact h.woke_ge it h1 hnone
      · rw [List.mem_singleton.mp h1, ht]; exact le_max_right _ _

/-! ## The states of the loop of `main` -/

theorem loopAt_succ (w : World) (k : Nat) :
    loopAt w (k + 1) = step (enumerate w).1.n w.tie w.delay (loopAt w k) := by
  simp only [loopAt, Function.iterate_succ_apply']

theorem inv_loopAt (w : World) (k : Nat) :
    Inv (enumerate w).1.n (deadline w) (sendsFrom w 0 (enumerate w).1.started) (loopAt w k) := by
  induction k with
  | zero => exact inv_init _ _ _ _
  | succ k ih => rw [loopAt_succ]; exact inv_step _ _ ih

/-- While the deadline has not been taken, step `k` is iteration `k`. -/
theorem loopAt_i (w : World) (k : Nat) (h : (loopAt w k).timedOut = false) :
    (loopAt w k).i = min k (enumerate w).1.n := by
  induction k with
  | zero => simp [loopAt, loopInit]
  | succ k ih =>
    rw [loopAt_succ] at h ⊢
    rcases step_cases (enumerate w).1.n w.tie w.delay (loopAt w k) with
      ⟨hend, hs⟩ | ⟨hf, hi, t, a, rest, _, hs⟩ | ⟨hf, hi, t, _, hs⟩
    · rw [hs] at h ⊢
      have hk := ih h
      rcases hend with hto | hn
      · rw [h] at hto; exact absurd hto (by simp)
      · omega
    · rw [hs]
      have hk := ih hf
      simp only
      omega
    · rw [hs] at h; simp at h

/-- The loop has ended after `n` steps: by the `return`, or with `i = n`. -/
theorem loop_ends (w : World) :
    (loopEnd w).timedOut = true ∨ (loopEnd w).i = (enumerate w).1.n := by
  cases h : (loopEnd w).timedOut with
  | true => exact Or.inl rfl
  | false =>
    right
    have := loopAt_i w (enumerate w).1.n h
    simpa [loopEnd] using this

theorem loopAt_of_ended (w : World) (k : Nat)
    (h : (loopAt w k).timedOut = true ∨ (enumerate w).1.n ≤ (loopAt w k).i) (m : Nat) :
    loopAt w (k + m) = loopAt w k := by
  induction m with
  | zero => rfl
  | succ m ih =>
    rw [← Nat.add_assoc, loopAt_succ, ih]
    rcases step_cases (enumerate w).1.n w.tie w.delay (loopAt w k) with
      ⟨_, hs⟩ | ⟨hf, hi, _⟩ | ⟨hf, hi, _⟩
    · exact hs
    · rcases h with h | h
      · rw [hf] at h; exact absurd h (by simp)
      · omega
    · rcases h with h | h
      · rw [hf] at h; exact absurd h (by simp)
      · omega

/-- Once left, the loop is never entered again. -/
theorem loopAt_after_end (w : World) (m : Nat) :
    loopAt w ((enumerate w).1.n + m) = loopEnd w := by
  refine loopAt_of_ended w _ ?_ m
  rcases loop_ends w with h | h
  · exact Or.inl h
  · exact Or.inr (le_of_eq h.symm)

/-- A send not received at some state was not received at any earlier state. -/
theorem pending_subset (w : World) (k m : Nat) :
    (loopAt w (k + m)).pending ⊆ (loopAt w k).pending := by
  induction m with
  | zero => exact List.Subset.refl _
  | succ m ih =>
    rw [← Nat.add_assoc, loopAt_succ]
    refine List.Subset.trans ?_ ih
    rcases step_cases (enumerate w).1.n w.tie w.delay (loopAt w (k + m)) with
      ⟨_, hs⟩ | ⟨_, _, t, a, rest, hsel, hs⟩ | ⟨_, _, t, _, hs⟩
    · rw [hs]; exact List.Subset.refl _
    · rw [hs]
      obtain ⟨hperm, _⟩ := extractMin_spec (select_recv hsel).1
      intro x hx
      exact hperm.symm.subset (List.mem_cons_of_mem _ hx)
    · rw [hs]; exact List.Subset.refl _

/-! ## The enumeration -/

theorem count_length (fmtSecs : Nat → String) (httpGet : String → Fetch) (name url : String) :
    (count fmtSecs httpGet name url).length = 1 := by
  unfold count
  cases (httpGet url).retrieval <;> rfl

theorem sendsFrom_length (w : World) (j : Nat) (l : List (String × String)) :
    (sendsFrom w j l).length = l.length := by
  induction l generalizing j with
  | nil => rfl
  | cons a rest ih =>
    obtain ⟨name, url⟩ := a
    simp only [sendsFrom, List.length_append, List.length_map, count_length, ih,
      List.length_cons]
    omega

theorem decodeLoop_spawn (valid : List Lang) (tail : List (Except String Lang)) (e : Enum) :
    decodeLoop spawn (valid.map Except.ok ++ tail) e =
      decodeLoop spawn tail
        ⟨e.n + valid.length, e.started ++ valid.map (fun l => (l.Name, l.URL))⟩ := by
  induction valid generalizing e with
  | nil => simp
  | cons l rest ih =>
    rw [List.map_cons, List.cons_append]
    simp only [decodeLoop]
    rw [ih (spawn l e)]
    simp only [spawn, List.length_cons, List.map_cons, List.append_assoc, List.singleton_append,
      Nat.add_assoc, Nat.add_comm 1]

theorem enumerate_ok (w : World) (langs : List Lang)
    (hin : w.input = .ok (langs.map Except.ok)) :
    enumerate w = (⟨langs.length, langs.map (fun l => (l.Name, l.URL))⟩, none) := by
  have h := decodeLoop_spawn langs [] ⟨0, []⟩
  simp only [List.append_nil, decodeLoop, Nat.zero_add, List.nil_append] at h
  simp only [enumerate, «do», hin, h]

theorem enumerate_malformed (w : World) (valid : List Lang) (e : String)
    (rest : List (Except String Lang))
    (hin : w.input = .ok (valid.map Except.ok ++ .error e :: rest)) :
    enumerate w = (⟨valid.length, valid.map (fun l => (l.Name, l.URL))⟩, some e) := by
  have h := decodeLoop_spawn valid (.error e :: rest) ⟨0, []⟩
  simp only [decodeLoop, Nat.zero_add, List.nil_append] at h
  simp only [enumerate, «do», hin, h]

/-- The counter `n` counts the goroutines started, whatever the input. -/
theorem decodeLoop_n (rs : List (Except String Lang)) (e : Enum)
    (h : e.n = e.started.length) :
    (decodeLoop spawn rs e).1.n = (decodeLoop spawn rs e).1.started.length := by
  induction rs generalizing e with
  | nil => exact h
  | cons r rest ih =>
    cases r with
    | error err => exact h
    | ok l =>
      simp only [decodeLoop]
      exact ih _ (by simp [spawn, h])

theorem enumerate_n (w : World) : (enumerate w).1.n = (enumerate w).1.started.length := by
  unfold enumerate «do»
  cases w.input with
  | error e => rfl
  | ok rs => exact decodeLoop_n rs _ rfl

theorem decodeLoop_acc (rs : List (Except String Lang)) (acc : List Lang) :
    (decodeLoop (fun l (a : List Lang) => a ++ [l]) rs acc).1 =
      acc ++ (decodeLoop (fun l (a : List Lang) => a ++ [l]) rs []).1 := by
  induction rs generalizing acc with
  | nil => simp [decodeLoop]
  | cons r rest ih =>
    cases r with
    | error err => simp [decodeLoop]
    | ok l =>
      simp only [decodeLoop, List.nil_append]
      rw [ih (acc ++ [l]), ih [l], List.append_assoc]

theorem decodeLoop_yield (rs : List (Except String Lang)) (e : Enum) :
    (decodeLoop spawn rs e).1.started =
      e.started ++ (decodeLoop (fun l (a : List Lang) => a ++ [l]) rs []).1.map
        (fun l => (l.Name, l.URL)) := by
  induction rs generalizing e with
  | nil => simp [decodeLoop]
  | cons r rest ih =>
    cases r with
    | error err => simp [decodeLoop]
    | ok l =>
      simp only [decodeLoop, List.nil_append]
      rw [ih (spawn l e), decodeLoop_acc rest [l]]
      simp [spawn]

/-- The goroutines `main` starts are those of the records `do` yields. -/
theorem enumerate_started (w : World) :
    (enumerate w).1.started = (yielded w.input).map (fun l => (l.Name, l.URL)) := by
  unfold enumerate yielded «do»
  cases w.input with
  | error e => rfl
  | ok rs => simpa using decodeLoop_yield rs ⟨0, []⟩

/-! ## Runs of `main` -/

theorem main_of_fatal (w : World) (err : String) (h : (enumerate w).2 = some err) :
    main w = { started := (enumerate w).1.started, n := (enumerate w).1.n, out := [],
               trace := [], pending := sendsFrom w 0 (enumerate w).1.started,
               exit := .fatal err } := by
  rcases he : enumerate w with ⟨e, _ | err1⟩
  · rw [he] at h; simp at h
  · rw [he] at h
    simp only [Option.some.injEq] at h
    simp only [main, he, h]

theorem main_of_timedOut (w : World) (h : (enumerate w).2 = none)
    (hto : (loopEnd w).timedOut = true) :
    main w = { started := (enumerate w).1.started, n := (enumerate w).1.n,
               out := (loopEnd w).out, trace := (loopEnd w).trace,
               pending := (loopEnd w).pending, exit := .timedOut } := by
  rcases he : enumerate w with ⟨e, _ | err1⟩
  · simp only [main, he, hto, if_true]
  · rw [he] at h; simp at h

theorem main_of_completed (w : World) (h : (enumerate w).2 = none)
    (hto : (loopEnd w).timedOut = false) :
    main w = { started := (enumerate w).1.started, n := (enumerate w).1.n,
               out := (loopEnd w).out ++ [Line.total ((loopEnd w).now - w.t0)],
               trace := (loopEnd w).trace, pending := (loopEnd w).pending,
               exit := .completed } := by
  rcases he : enumerate w with ⟨e, _ | err1⟩
  · simp [main, he, hto]
  · rw [he] at h; simp at h

theorem main_trace (w : World) (h : (enumerate w).2 = none) :
    (main w).trace = (loopEnd w).trace := by
  cases hto : (loopEnd w).timedOut with
  | true => rw [main_of_timedOut w h hto]
  | false => rw [main_of_completed w h hto]

/-- Where the history of a loop holds a `select` that took the deadline. -/
theorem shape_none {α : Type} (l : List α) (b : Bool) (k : Nat)
    (h : (l.map some ++ (if b then [none] else []))[k]? = some none) :
    b = true ∧ k = l.length := by
  by_cases hk : k < l.length
  · rw [List.getElem?_append_left (by simpa using hk)] at h
    simp [List.getElem?_map, List.getElem?_eq_getElem hk] at h
  · have hk1 : (l.map some).length ≤ k := by simpa using hk
    rw [List.getElem?_append_right hk1] at h
    cases b with
    | false => simp at h
    | true =>
      simp only [if_true, List.length_map] at h
      refine ⟨rfl, ?_⟩
      by_contra hne
      have hpos : k - l.length = (k - l.length - 1) + 1 := by
        simp only [not_lt] at hk
        omega
      rw [hpos] at h
      simp at h

/-- A `select` of the history took the deadline only as the last one, after
which the loop was left. -/
theorem deadline_taken (w : World) (k : Nat) (it : Iter)
    (hit : (loopEnd w).trace[k]? = some it) (hnone : it.got = none) :
    (loopEnd w).timedOut = true ∧ k = (loopEnd w).i := by
  have hinv : Inv _ _ _ (loopEnd w) := inv_loopAt w (enumerate w).1.n
  have h1 : ((loopEnd w).trace.map Iter.got)[k]? = some none := by
    rw [List.getElem?_map, hit]; simp [hnone]
  rw [hinv.shape] at h1
  have h2 := shape_none _ _ _ h1
  exact ⟨h2.1, by rw [h2.2]; exact hinv.i_eq.symm⟩

/-- The `select` that follows the results received is the one that took the
deadline, when the loop was left by the `return`. -/
theorem deadline_iter (w : World) (hto : (loopEnd w).timedOut = true) :
    ((loopEnd w).trace.map Iter.got)[(loopEnd w).i]? = some none := by
  have hinv : Inv _ _ _ (loopEnd w) := inv_loopAt w (enumerate w).1.n
  rw [hinv.shape, hto, List.getElem?_append_right (by simp [hinv.i_eq])]
  simp [hinv.i_eq]

/-- The sends not received when the loop is left, counted. -/
theorem pending_length (w : World) :
    (loopEnd w).i + (loopEnd w).pending.length = (enumerate w).1.n := by
  have hinv : Inv _ _ _ (loopEnd w) := inv_loopAt w (enumerate w).1.n
  have h := hinv.perm.length_eq
  rw [List.length_append, sendsFrom_length, ← enumerate_n, ← hinv.i_eq] at h
  exact h

/-- The sends not received when the loop is left are received in no state. -/
theorem pending_loopEnd_subset (w : World) (m : Nat) :
    (loopEnd w).pending ⊆ (loopAt w m).pending := by
  by_cases h : m ≤ (enumerate w).1.n
  · have := pending_subset w m ((enumerate w).1.n - m)
    rwa [Nat.add_sub_cancel' h] at this
  · have := loopAt_after_end w (m - (enumerate w).1.n)
    rw [Nat.add_sub_cancel' (le_of_lt (not_le.mp h))] at this
    rw [this]
    exact List.Subset.refl _

theorem getElem?_snoc {α : Type} (l : List α) (a : α) (j : Nat) (x : α)
    (h : (l ++ [a])[j]? = some x) : l[j]? = some x ∨ (j = l.length ∧ x = a) := by
  by_cases hj : j < l.length
  · left
    rwa [List.getElem?_append_left hj] at h
  · right
    rw [List.getElem?_append_right (not_lt.mp hj)] at h
    have hj0 : j - l.length = 0 := by
      by_contra hne
      have hpos : j - l.length = (j - l.length - 1) + 1 := by omega
      rw [hpos] at h
      simp at h
    rw [hj0] at h
    simp only [List.getElem?_cons_zero, Option.some.injEq] at h
    exact ⟨by have := not_lt.mp hj; omega, h.symm⟩

/-- While the loop runs, its history holds one `select` per iteration. -/
theorem trace_length_running (w : World) (k : Nat) (hf : (loopAt w k).timedOut = false) :
    (loopAt w k).trace.length = (loopAt w k).i := by
  have hinv := inv_loopAt w k
  have h := congrArg List.length hinv.shape
  simp only [hf, List.length_map, List.length_append, Bool.false_eq_true, if_false,
    List.length_nil, Nat.add_zero] at h
  rw [h, hinv.i_eq]

/-- Entry `j` of the history is the `select` evaluated in the state reached
after `j` steps, against the deadline set before the loop. -/
theorem trace_entry (w : World) (k j : Nat) (it : Iter)
    (h : (loopAt w k).trace[j]? = some it) :
    it.entered = (loopAt w j).now ∧
    it.woke = (select (deadline w) (loopAt w j).now (loopAt w j).pending (w.tie j)).1 ∧
    it.got = (select (deadline w) (loopAt w j).now (loopAt w j).pending (w.tie j)).2.map
      Prod.fst := by
  induction k with
  | zero => simp [loopAt, loopInit] at h
  | succ k ih =>
    rw [loopAt_succ] at h
    rcases step_cases (enumerate w).1.n w.tie w.delay (loopAt w k) with
      ⟨_, hs⟩ | ⟨hf, hi, t, a, rest, hsel, hs⟩ | ⟨hf, hi, t, hsel, hs⟩
    · rw [hs] at h; exact ih h
    · rw [hs] at h
      rcases getElem?_snoc _ _ _ _ h with h1 | ⟨hj, hit⟩
      · exact ih h1
      · have hik := loopAt_i w k hf
        have hlen := trace_length_running w k hf
        have hjk : j = k := by omega
        have hi2 : (loopAt w k).i = k := by omega
        rw [(inv_loopAt w k).timeout_eq, hi2] at hsel
        subst hjk
        rw [hit, hsel]
        exact ⟨rfl, rfl, rfl⟩
    · rw [hs] at h
      rcases getElem?_snoc _ _ _ _ h with h1 | ⟨hj, hit⟩
      · exact ih h1
      · have hik := loopAt_i w k hf
        have hlen := trace_length_running w k hf
        have hjk : j = k := by omega
        have hi2 : (loopAt w k).i = k := by omega
        rw [(inv_loopAt w k).timeout_eq, hi2] at hsel
        subst hjk
        rw [hit, hsel]
        exact ⟨rfl, rfl, rfl⟩

theorem filter_isResult (l : List Worker) (tail : List Line)
    (h : ∀ x ∈ tail, x.isResult = false) :
    ((l.map (fun a => Line.result a.msg) ++ tail).filter Line.isResult).length = l.length := by
  have h1 : tail.filter Line.isResult = [] := List.filter_eq_nil_iff.mpr (by simpa using h)
  have h2 : (l.map (fun a => Line.result a.msg)).filter Line.isResult
      = l.map (fun a => Line.result a.msg) :=
    List.filter_eq_self.mpr (by simp [Line.isResult])
  rw [List.filter_append, h1, h2, List.append_nil, List.length_map]

/-! ## Results that are ready in time -/

theorem select_recv_of_lt {D now : Nat} {p : List Worker} (tie : Bool) {a : Worker}
    {rest : List Worker} (hp : extractMin p = some (a, rest))
    (hlt : max now a.ready < max now D) :
    select D now p tie = (max now a.ready, some (a, rest)) := by
  unfold select
  rw [hp]
  simp only [hlt, if_true]

theorem pending_length_at (w : World) (k : Nat) :
    (loopAt w k).i + (loopAt w k).pending.length = (enumerate w).1.n := by
  have hinv := inv_loopAt w k
  have h := hinv.perm.length_eq
  rw [List.length_append, sendsFrom_length, ← enumerate_n, ← hinv.i_eq] at h
  exact h

theorem lag_mono (delay : Nat → Nat) {k n : Nat} (h : k ≤ n) : lag delay k ≤ lag delay n := by
  induction n with
  | zero =>
    have hk : k = 0 := by omega
    rw [hk]
  | succ n ih =>
    rcases Nat.lt_or_ge k (n + 1) with hlt | hge
    · have := ih (by omega)
      simp only [lag]
      omega
    · have hk : k = n + 1 := by omega
      rw [hk]

/-- When every send is ready, and the loop entered, more than the time the
dispatcher takes between its `select`s before the deadline, no `select` takes
the deadline and each returns before it: after `k` steps, what is left of that
margin still covers the sends not yet received. -/
theorem timely_no_timeout (w : World)
    (hr : ∀ x ∈ sendsFrom w 0 (enumerate w).1.started,
      max (w.t0 + w.enumTime) x.ready + lag w.delay ((enumerate w).1.n - 1) < deadline w)
    (k : Nat) (hk : k ≤ (enumerate w).1.n) :
    (loopAt w k).timedOut = false ∧
    (∀ x ∈ (loopAt w k).pending,
      max (loopAt w k).now x.ready + lag w.delay ((enumerate w).1.n - 1)
        < deadline w + lag w.delay k) ∧
    ∀ it ∈ (loopAt w k).trace, it.got ≠ none ∧ it.woke < deadline w := by
  induction k with
  | zero =>
    refine ⟨rfl, ?_, by simp [loopAt, loopInit]⟩
    intro x hx
    exact hr x hx
  | succ k ih =>
    obtain ⟨hto, hpend, htr⟩ := ih (by omega)
    have hinv := inv_loopAt w k
    have hik := loopAt_i w k hto
    have hmono := lag_mono w.delay (show k ≤ (enumerate w).1.n - 1 by omega)
    have hi2 : (loopAt w k).i = k := by omega
    rw [loopAt_succ]
    rcases step_cases (enumerate w).1.n w.tie w.delay (loopAt w k) with
      ⟨hend, hs⟩ | ⟨hf, hi, t, a, rest, hsel, hs⟩ | ⟨hf, hi, t, hsel, hs⟩
    · exfalso
      rcases hend with h | h
      · rw [hto] at h; exact absurd h (by simp)
      · omega
    · rw [hs]
      obtain ⟨hmin, ht, _⟩ := select_recv hsel
      obtain ⟨hperm, hle⟩ := extractMin_spec hmin
      have hpa := hpend a (hperm.symm.subset (List.mem_cons_self _ _))
      have h1 : (loopAt w k).now ≤ max (loopAt w k).now a.ready := le_max_left _ _
      have h2 : a.ready ≤ max (loopAt w k).now a.ready := le_max_right _ _
      refine ⟨hf, fun x hx => ?_, fun it hit => ?_⟩
      · have hpx := hpend x (hperm.symm.subset (List.mem_cons_of_mem _ hx))
        have hax := hle x hx
        have h3 : (loopAt w k).now ≤ max (loopAt w k).now x.ready := le_max_left _ _
        have h4 : x.ready ≤ max (loopAt w k).now x.ready := le_max_right _ _
        have h5 : max (loopAt w k).now a.ready ≤ max (loopAt w k).now x.ready :=
          max_le h3 (le_trans hax h4)
        have h6 : max (t + w.delay (loopAt w k).i) x.ready
            ≤ max (loopAt w k).now x.ready + w.delay k := by
          rw [hi2, ht]
          exact max_le (by omega) (by omega)
        simp only [lag]
        omega
      · rcases List.mem_append.mp hit with h7 | h7
        · exact htr it h7
        · rw [List.mem_singleton.mp h7]
          exact ⟨by simp, by show t < deadline w; omega⟩
    · exfalso
      have hpl := pending_length_at w k
      cases hp : extractMin (loopAt w k).pending with
      | none =>
        rw [extractMin_eq_none.mp hp] at hpl
        simp only [List.length_nil] at hpl
        omega
      | some q =>
        obtain ⟨a, rest⟩ := q
        obtain ⟨hperm, _⟩ := extractMin_spec hp
        have hpa := hpend a (hperm.symm.subset (List.mem_cons_self _ _))
        have hlt : max (loopAt w k).now a.ready
            < max (loopAt w k).now (loopAt w k).timeout := by
          rw [hinv.timeout_eq]
          exact lt_of_lt_of_le (by omega) (le_max_right _ _)
        rw [select_recv_of_lt _ hp hlt] at hsel
        simp at hsel

/-! ## The claims -/

/-- C1, as amended.  For a batch of N tasks whose N results are all ready in
time (for each send, the later of the entry of the loop and the instant the
send is ready, plus the time the dispatcher takes in all between its N
`select`s, is before the deadline), every `select` receives a result before
the deadline, and `main` prints exactly the N results of its N goroutines, in
the order of their arrival on the channel, then one total-time line, and no
"Timed out" line; for N = 0 it prints the total-time line alone. -/
theorem main_prints_all_results (w : World) (langs : List Lang)
    (hin : w.input = .ok (langs.map Except.ok))
    (hr : ∀ x ∈ sendsFrom w 0 (langs.map (fun l => (l.Name, l.URL))),
      max (w.t0 + w.enumTime) x.ready + lag w.delay (langs.length - 1) < deadline w) :
    (main w).received.Perm (sendsFrom w 0 (langs.map (fun l => (l.Name, l.URL)))) ∧
    (main w).received.length = langs.length ∧
    (main w).trace.map Iter.got = (main w).received.map some ∧
    (∀ it ∈ (main w).trace, it.got ≠ none ∧ it.woke < deadline w) ∧
    (main w).received.Pairwise (fun a b => a.ready ≤ b.ready) ∧
    (main w).out = (main w).received.map (fun a => Line.result a.msg)
      ++ [Line.total ((loopEnd w).now - w.t0)] ∧
    Line.timedOut ∉ (main w).out ∧
    (main w).exit = Exit.completed ∧
    (langs = [] → (main w).out = [Line.total w.enumTime]) := by
  have he := enumerate_ok w langs hin
  have hnone : (enumerate w).2 = none := by rw [he]
  have hn : (enumerate w).1.n = langs.length := by rw [he]
  have hst : (enumerate w).1.started = langs.map (fun l => (l.Name, l.URL)) := by rw [he]
  have hinv : Inv _ _ _ (loopEnd w) := inv_loopAt w (enumerate w).1.n
  obtain ⟨hto, _, htr⟩ := timely_no_timeout w (by rw [hst, hn]; exact hr) (enumerate w).1.n
    (le_refl _)
  have hto : (loopEnd w).timedOut = false := hto
  have hi : (loopEnd w).i = langs.length := by
    rcases loop_ends w with h | h
    · rw [hto] at h; exact absurd h (by simp)
    · rw [h, hn]
  have hpl := pending_length w
  have hpend : (loopEnd w).pending = [] := by
    apply List.eq_nil_of_length_eq_zero
    omega
  have hperm := hinv.perm
  have hshape := hinv.shape
  have hout := hinv.out_eq
  rw [hpend, List.append_nil, hst] at hperm
  simp only [hto, Bool.false_eq_true, if_false, List.append_nil] at hshape hout
  rw [main_of_completed w hnone hto]
  simp only [Run.received]
  refine ⟨hperm, ?_, hshape, htr, hinv.sorted, ?_, ?_, trivial, ?_⟩
  · rw [← hi]; exact hinv.i_eq.symm
  · rw [hout]; rfl
  · rw [hout]; simp
  · intro hnil
    have h0 : (enumerate w).1.n = 0 := by rw [hn, hnil]; rfl
    simp [loopEnd, loopAt, h0, loopInit]

/-- C1 at a batch of two tasks, both ready long before the deadline: the second
answers first and is printed first. -/
theorem main_prints_all_results_witness :
    (main fastWorld).out =
      [Line.result "Python 500 [0.05s]\n", Line.result "Go: connection refused",
       Line.total 70000010] ∧
    Line.timedOut ∉ (main fastWorld).out ∧
    (main fastWorld).exit = Exit.completed := by
  have h := main_prints_all_results fastWorld
    [⟨"Go", 2009, "g"⟩, ⟨"Python", 1991, "p"⟩] rfl (by decide)
  exact ⟨by decide, h.2.2.2.2.2.2.1, h.2.2.2.2.2.2.2.1⟩

/-- C1 fails when the dispatcher is late for a `select`: both sends are ready
0.9 s before the deadline, but the dispatcher takes 1.3 s after its first
`select`, enters the second after the deadline with the other result ready,
and the `select` takes the deadline: one result, then "Timed out". -/
theorem late_dispatcher_times_out :
    (∀ x ∈ sendsFrom busyWorld 0 [("Go", "g"), ("Python", "p")],
      x.ready + 900000000 < deadline busyWorld) ∧
    (main busyWorld).trace =
      [⟨1000, 100000010, some ⟨100000010, "Go 7 [0.10s]\n"⟩⟩,
       ⟨1400000010, 1400000010, none⟩] ∧
    (main busyWorld).out = [Line.result "Go 7 [0.10s]\n", Line.timedOut] ∧
    (main busyWorld).pending = [⟨100000010, "Python 7 [0.10s]\n"⟩] ∧
    (main busyWorld).exit = Exit.timedOut := by
  decide

/-- C2.  For a batch of N tasks in which the deadline is taken while only k
results have been received (the `select` that follows the first k receives
takes the deadline), k is strictly less than N and `main` prints exactly those
k results, the k that arrived first, then one "Timed out" line and nothing
else: no later result and no total-time line. -/
theorem main_timeout_prints_received (w : World) (langs : List Lang) (k : Nat)
    (hin : w.input = .ok (langs.map Except.ok))
    (hk : ∃ it, (main w).trace[k]? = some it ∧ it.got = none) :
    k < langs.length ∧
    (main w).received.length = k ∧
    ((main w).received ++ (main w).pending).Perm
      (sendsFrom w 0 (langs.map (fun l => (l.Name, l.URL)))) ∧
    (∀ a ∈ (main w).received, ∀ b ∈ (main w).pending, a.ready ≤ b.ready) ∧
    (main w).received.Pairwise (fun a b => a.ready ≤ b.ready) ∧
    (main w).out = (main w).received.map (fun a => Line.result a.msg) ++ [Line.timedOut] ∧
    (∀ d, Line.total d ∉ (main w).out) ∧
    (main w).exit = Exit.timedOut := by
  have he := enumerate_ok w langs hin
  have hnone : (enumerate w).2 = none := by rw [he]
  have hn : (enumerate w).1.n = langs.length := by rw [he]
  have hst : (enumerate w).1.started = langs.map (fun l => (l.Name, l.URL)) := by rw [he]
  have hinv : Inv _ _ _ (loopEnd w) := inv_loopAt w (enumerate w).1.n
  obtain ⟨it, hit, hgot⟩ := hk
  rw [main_trace w hnone] at hit
  obtain ⟨hto, hki⟩ := deadline_taken w k it hit hgot
  have hlt := hinv.i_lt hto
  have hperm := hinv.perm
  have hout := hinv.out_eq
  rw [hst] at hperm
  simp only [hto, if_true] at hout
  rw [main_of_timedOut w hnone hto]
  simp only [Run.received]
  refine ⟨by omega, ?_, hperm, hinv.le_pending, hinv.sorted, hout, ?_, trivial⟩
  · rw [hki]; exact hinv.i_eq.symm
  · intro d
    rw [hout]
    simp

/-- C2 at three targets answering after 0.1 s, 0.2 s and 2.0 s: two results,
then the timeout. -/
theorem main_timeout_prints_received_witness :
    (main slowWorld).out =
      [Line.result "Ruby 0 [0.10s]\n", Line.result "Python 500 [0.20s]\n", Line.timedOut] ∧
    (main slowWorld).exit = Exit.timedOut := by
  have h := main_timeout_prints_received slowWorld
    [⟨"Go", 2009, "g"⟩, ⟨"Python", 1991, "p"⟩, ⟨"Ruby", 1995, "r"⟩] 2 rfl
    ⟨⟨200000020, 1000001000, none⟩, by decide, rfl⟩
  exact ⟨by decide, h.2.2.2.2.2.2.2⟩

/-- C3, as amended.  The deadline of the collection loop is measured from the
end of the enumeration: the channel `timeout` delivers one second after the
call of `time.After` at line 77, in every state of the loop, the deadline is
never taken before that instant, and it differs from one second after the
batch start by the time the enumeration took. -/
theorem deadline_from_enumeration_end (w : World) :
    deadline w = (w.t0 + w.enumTime) + 1 * second ∧
    (∀ k, (loopAt w k).timeout = (w.t0 + w.enumTime) + 1 * second) ∧
    (∀ it ∈ (main w).trace, it.got = none → (w.t0 + w.enumTime) + 1 * second ≤ it.woke) ∧
    deadline w = (w.t0 + 1 * second) + w.enumTime := by
  refine ⟨rfl, fun k => (inv_loopAt w k).timeout_eq, ?_, ?_⟩
  · intro it hit hgot
    cases he : (enumerate w).2 with
    | some err => rw [main_of_fatal w err he] at hit; simp at hit
    | none =>
      rw [main_trace w he] at hit
      exact (inv_loopAt w (enumerate w).1.n).woke_ge it hit hgot
  · simp only [deadline, timeAfter]
    omega

/-- C3 fails where the enumeration takes time: with the batch started at 0 and
the enumeration ended 5 s later, the timeout fires at 6 s, not at 1 s, and a
result that arrives at 5.5 s is still received and the run completes. -/
theorem deadline_not_from_start :
    lateWorld.t0 + 1 * second = 1000000000 ∧
    deadline lateWorld = 6000000000 ∧
    (main lateWorld).trace = [⟨5000000000, 5500000000, some ⟨5500000000, "Go 7 [0.50s]\n"⟩⟩] ∧
    (main lateWorld).exit = Exit.completed := by
  decide

/-- C4, as amended.  For every task whose retrieval starts successfully, `count`
emits a Success result carrying the number of bytes copied, whether or not the
body read fails: the error of `io.Copy` is discarded, and only an error of
`http.Get` is folded into the Failure variant. -/
theorem count_response_is_success (fmtSecs : Nat → String) (httpGet : String → Fetch)
    (name url : String) :
    (∀ n copyErr, (httpGet url).retrieval = .response n copyErr →
      count fmtSecs httpGet name url =
        [name ++ " " ++ toString n ++ " [" ++ fmtSecs (httpGet url).elapsed ++ "s]\n"]) ∧
    (∀ err, (httpGet url).retrieval = .getError err →
      count fmtSecs httpGet name url = [name ++ ": " ++ err]) := by
  constructor
  · intro n copyErr h
    simp only [count, h]
  · intro err h
    simp only [count, h]

/-- C4 fails on a body read that breaks after 3 bytes: `count` sends the Success
line with the 3 bytes, not the Failure line with the error. -/
theorem count_body_error_not_failure :
    count centis (fun _ => ⟨.response 3 (some "unexpected EOF"), 0, 50000000⟩) "Go" "g"
      = ["Go 3 [0.05s]\n"] ∧
    count centis (fun _ => ⟨.response 3 (some "unexpected EOF"), 0, 50000000⟩) "Go" "g"
      ≠ ["Go: unexpected EOF"] := by
  decide

/-- C5, as amended.  A task-source error aborts the run with nothing printed:
when the source cannot be opened no worker has been started, and when a
malformed record is met one worker has been started for each valid record that
precedes it, and none for the records after it. -/
theorem abort_after_valid_records (w : World) (valid : List Lang) (e : String)
    (rest : List (Except String Lang)) :
    (main { w with input := .error e }).exit = Exit.fatal e ∧
    (main { w with input := .error e }).started = [] ∧
    (main { w with input := .error e }).out = [] ∧
    (main { w with input := .ok (valid.map Except.ok ++ .error e :: rest) }).exit
      = Exit.fatal e ∧
    (main { w with input := .ok (valid.map Except.ok ++ .error e :: rest) }).started
      = valid.map (fun l => (l.Name, l.URL)) ∧
    (main { w with input := .ok (valid.map Except.ok ++ .error e :: rest) }).started.length
      = valid.length ∧
    (main { w with input := .ok (valid.map Except.ok ++ .error e :: rest) }).out = [] := by
  have h1 : enumerate { w with input := .error e } = (⟨0, []⟩, some e) := rfl
  have h2 := enumerate_malformed { w with input := .ok (valid.map Except.ok ++ .error e :: rest) }
    valid e rest rfl
  rw [main_of_fatal _ e (by rw [h1]), main_of_fatal _ e (by rw [h2]), h1, h2]
  simp

/-- C5 fails when a valid record precedes the malformed one: the run aborts
after the worker of the valid record has been started. -/
theorem worker_started_before_abort :
    (main brokenWorld).exit = Exit.fatal "invalid character" ∧
    (main brokenWorld).started = [("Go", "g")] ∧
    (main brokenWorld).started.length = 1 := by
  decide

/-- C6 at a failed retrieval: the Failure result that `count` sends is the
name, a colon and the error text, with no line terminator at its end, while
the Success result ends with one. -/
theorem count_failure_no_terminator :
    count centis (fun _ => ⟨.getError "connection refused", 0, 70000000⟩) "Go" "g"
      = ["Go: connection refused"] ∧
    "Go: connection refused".back ≠ '\n' ∧
    count centis (fun _ => ⟨.response 500 none, 0, 50000000⟩) "Python" "p"
      = ["Python 500 [0.05s]\n"] ∧
    (main fastWorld).text centis = "Python 500 [0.05s]\nGo: connection refused0.07s total\n" := by
  decide

/-- C7.  Whatever the name, the target and the outcome of the retrieval (an
error of `http.Get`, or a response of any size, also when the body read
fails), `count` performs exactly one send on the results channel. -/
theorem count_sends_once (fmtSecs : Nat → String) (httpGet : String → Fetch)
    (name url : String) :
    (count fmtSecs httpGet name url).length = 1 ∧
    ∃ m, count fmtSecs httpGet name url = [m] := by
  refine ⟨count_length _ _ _ _, ?_⟩
  unfold count
  cases (httpGet url).retrieval with
  | getError err => exact ⟨_, rfl⟩
  | response n copyErr => exact ⟨_, rfl⟩

/-- C8.  The deadline is set once, before the first iteration, and never
reset: in every state of the loop the channel `timeout` delivers at the instant
fixed at line 77, every `select` of the history is evaluated against that same
instant, and none returns later than that instant unless it was entered later,
in which case it returns at once. -/
theorem deadline_fixed (w : World) (k : Nat) :
    (loopInit w).timeout = timeAfter (w.t0 + w.enumTime) (1 * second) ∧
    (loopAt w k).timeout = (loopInit w).timeout ∧
    (∀ j it, (loopAt w k).trace[j]? = some it →
      it.entered = (loopAt w j).now ∧
      it.woke = (select (loopInit w).timeout (loopAt w j).now (loopAt w j).pending
        (w.tie j)).1 ∧
      it.got = (select (loopInit w).timeout (loopAt w j).now (loopAt w j).pending
        (w.tie j)).2.map Prod.fst ∧
      it.woke ≤ max it.entered (loopInit w).timeout) := by
  refine ⟨rfl, (inv_loopAt w k).timeout_eq, fun j it h => ?_⟩
  obtain ⟨h1, h2, h3⟩ := trace_entry w k j it h
  refine ⟨h1, h2, h3, ?_⟩
  exact (inv_loopAt w k).woke_le it (List.getElem?_mem h)

/-- C9, as amended.  After a timeout the sends of the abandoned workers are
never received: when `main` takes the deadline with k results received, the
N - k remaining sends (at least one) have not been received when `main`
returns, the loop performs no receive afterwards, and each of them is among
the sends not received in every state of the loop; on the unbuffered channel
none of them completes. -/
theorem abandoned_sends_stay_pending (w : World) (langs : List Lang) (k : Nat)
    (hin : w.input = .ok (langs.map Except.ok))
    (hk : ∃ it, (main w).trace[k]? = some it ∧ it.got = none) :
    (main w).pending.length = langs.length - k ∧
    (main w).pending ≠ [] ∧
    (∀ m, loopAt w (langs.length + m) = loopEnd w) ∧
    (∀ m, ∀ x ∈ (main w).pending, x ∈ (loopAt w m).pending) := by
  have he := enumerate_ok w langs hin
  have hnone : (enumerate w).2 = none := by rw [he]
  have hn : (enumerate w).1.n = langs.length := by rw [he]
  have hinv : Inv _ _ _ (loopEnd w) := inv_loopAt w (enumerate w).1.n
  obtain ⟨it, hit, hgot⟩ := hk
  rw [main_trace w hnone] at hit
  obtain ⟨hto, hki⟩ := deadline_taken w k it hit hgot
  have hlt := hinv.i_lt hto
  have hpl := pending_length w
  rw [main_of_timedOut w hnone hto]
  simp only
  refine ⟨by omega, ?_, ?_, fun m x hx => pending_loopEnd_subset w m hx⟩
  · intro hnil
    rw [hnil] at hpl
    simp only [List.length_nil] at hpl
    omega
  · intro m
    rw [← hn]
    exact loopAt_after_end w m

/-- C9 at three targets answering after 0.1 s, 0.2 s and 2.0 s. -/
theorem abandoned_sends_stay_pending_witness :
    (main slowWorld).pending.length = 3 - 2 ∧
    (main slowWorld).pending ≠ [] ∧
    (∀ m, loopAt slowWorld (3 + m) = loopEnd slowWorld) ∧
    (∀ m, ∀ x ∈ (main slowWorld).pending, x ∈ (loopAt slowWorld m).pending) :=
  abandoned_sends_stay_pending slowWorld
    [⟨"Go", 2009, "g"⟩, ⟨"Python", 1991, "p"⟩, ⟨"Ruby", 1995, "r"⟩] 2 rfl
    ⟨⟨200000020, 1000001000, none⟩, by decide, rfl⟩

/-- C9 fails on the unbuffered channel: with three targets answering after
0.1 s, 0.2 s and 2.0 s, `main` returns on the timeout with the send of the
slowest worker not received, and that send is not received in any state of
the loop, so it never completes. -/
theorem abandoned_send_never_completes :
    (main slowWorld).exit = Exit.timedOut ∧
    (main slowWorld).pending = [⟨2000000010, "Go 7 [2.00s]\n"⟩] ∧
    (∀ m, (⟨2000000010, "Go 7 [2.00s]\n"⟩ : Worker) ∈ (loopAt slowWorld m).pending) := by
  refine ⟨by decide, by decide, fun m => ?_⟩
  apply pending_loopEnd_subset slowWorld m
  have h : (loopEnd slowWorld).pending = [⟨2000000010, "Go 7 [2.00s]\n"⟩] := by decide
  rw [h]
  exact List.mem_singleton.mpr rfl

/-- C10.  The counter `n` is the number of records the task source yielded, one
goroutine and one send per record; in every state of the loop the number `i`
of results received, which is the number of results printed, is at most `n`;
the loop evaluates at most `n` `select`s; a state is left unchanged by a
further step exactly when `i = n` or the deadline was taken, and the state
after `n` steps is such a state. -/
theorem received_le_taskCount (w : World) (k : Nat) :
    (enumerate w).1.n = (yielded w.input).length ∧
    (enumerate w).1.started = (yielded w.input).map (fun l => (l.Name, l.URL)) ∧
    (loopInit w).pending.length = (enumerate w).1.n ∧
    (loopAt w k).i ≤ (enumerate w).1.n ∧
    (loopAt w k).i = ((loopAt w k).out.filter Line.isResult).length ∧
    (loopAt w k).trace.length ≤ (enumerate w).1.n ∧
    (loopAt w (k + 1) = loopAt w k ↔
      ((loopAt w k).i = (enumerate w).1.n ∨ (loopAt w k).timedOut = true)) ∧
    ((loopEnd w).i = (enumerate w).1.n ∨ (loopEnd w).timedOut = true) := by
  have hinv := inv_loopAt w k
  refine ⟨?_, enumerate_started w, ?_, hinv.i_le, ?_, ?_, ?_, (loop_ends w).symm⟩
  · rw [enumerate_n, enumerate_started, List.length_map]
  · simp only [loopInit]
    rw [sendsFrom_length, enumerate_n]
  · rw [hinv.out_eq, filter_isResult _ _ (by
      intro x hx
      cases hto : (loopAt w k).timedOut with
      | false => rw [hto] at hx; simp at hx
      | true =>
        rw [hto] at hx
        simp only [if_true, List.mem_singleton] at hx
        rw [hx]; rfl)]
    exact hinv.i_eq
  · cases hto : (loopAt w k).timedOut with
    | false =>
      rw [trace_length_running w k hto]
      exact hinv.i_le
    | true =>
      have h := congrArg List.length hinv.shape
      simp only [hto, List.length_map, List.length_append, if_true, List.length_singleton] at h
      have hlt := hinv.i_lt hto
      have hi := hinv.i_eq
      omega
  · rw [loopAt_succ]
    rcases step_cases (enumerate w).1.n w.tie w.delay (loopAt w k) with
      ⟨hend, hs⟩ | ⟨hf, hi, t, a, rest, _, hs⟩ | ⟨hf, hi, t, _, hs⟩
    · rw [hs]
      simp only [true_iff]
      rcases hend with h | h
      · exact Or.inr h
      · exact Or.inl (le_antisymm hinv.i_le h)
    · rw [hs]
      constructor
      · intro heq
        have := congrArg Loop.i heq
        simp at this
      · rintro (h | h)
        · omega
        · rw [hf] at h; exact absurd h (by simp)
    · rw [hs]
      constructor
      · intro heq
        have := congrArg Loop.timedOut heq
        simp [hf] at this
      · rintro (h | h)
        · omega
        · rw [hf] at h; exact absurd h (by simp)

end Webcrawl
